import Mathlib

/- Verification of doc/src/conf.py of the lumol repository.

   The file under verification is a Sphinx configuration module whose only
   computation is the function version() on lines 31-35:

     def version():
         parsed = toml.loads(open(os.path.join("..", "..", "Cargo.toml")).read())
         release = parsed["package"]["version"]
         version = ".".join(release.split(".")[:2])
         return version, release

   Strings are modelled as lists of characters.  The filesystem and the
   third-party toml parser are modelled as explicit parameters, and the
   uncaught Python exceptions (FileNotFoundError, TomlDecodeError, KeyError)
   become the branches of an Except value. -/

/-- Character list of a string literal, used for concrete test inputs. -/
def chars (s : String) : List Char := s.data

/-- Embedding of the Python expression release.split(".") on character
lists: split at every occurrence of the dot character.  As in Python, an
empty input yields one empty piece and n dots yield n+1 pieces. -/
def splitDot : List Char → List (List Char)
  | [] => [[]]
  | c :: cs =>
    if c = '.' then [] :: splitDot cs
    else (c :: (splitDot cs).headI) :: (splitDot cs).tail

/-- Embedding of the Python expression ".".join(pieces). -/
def joinDot : List (List Char) → List Char
  | [] => []
  | [p] => p
  | p :: q :: ps => p ++ '.' :: joinDot (q :: ps)

/-- Line 34 of conf.py: the dot-join of the first two dot-separated
components of release. -/
def versionOf (release : List Char) : List Char :=
  joinDot ((splitDot release).take 2)

example : versionOf (chars "0.7.2") = chars "0.7" := by decide
example : versionOf (chars "2.10") = chars "2.10" := by decide
example : versionOf (chars "1") = chars "1" := by decide
example : splitDot (chars "a..b") = [chars "a", chars "", chars "b"] := by decide

/-- Values of the structured manifest format: the fragment of toml the
configuration code touches, namely string fields and key-value tables. -/
inductive Toml where
  | str : List Char → Toml
  | table : List (List Char × Toml) → Toml

/-- Key lookup in a parsed table, the semantics of Python dict indexing. -/
def tomlLookup : List (List Char × Toml) → List Char → Option Toml
  | [], _ => none
  | (k, v) :: rest, key => if key = k then some v else tomlLookup rest key

/-- Embedding of the expression parsed["package"]["version"] on line 33,
together with the implicit requirement of line 34 that the extracted value
is a string, so that .split applies to it.  Any failure along the chain
(top level not a table, package key absent or not a table, version key
absent or not a string) leaves the field unextracted. -/
def getVersionField (parsed : Toml) : Option (List Char) :=
  match parsed with
  | Toml.str _ => none
  | Toml.table kvs =>
    match tomlLookup kvs (chars "package") with
    | some (Toml.table pkg) =>
      match tomlLookup pkg (chars "version") with
      | some (Toml.str s) => some s
      | _ => none
    | _ => none

/-- The failure kinds of the version function, one per uncaught Python
exception: FileNotFoundError from open, TomlDecodeError from toml.loads,
and KeyError or a kindred lookup failure from the field extraction. -/
inductive VersionError where
  | fileNotFound
  | parseError
  | missingField
deriving DecidableEq

/-- Embedding of the whole function version() on lines 31-35.  The
filesystem is a map from paths to optional contents, the third-party toml
parser is a parameter returning none on malformed input, and the code
catches nothing: each failure propagates directly as the corresponding
error, with no retry, wrapping, or fallback. -/
def resolve_version (fs : List Char → Option (List Char))
    (parse : List Char → Option Toml) (path : List Char) :
    Except VersionError (List Char × List Char) :=
  match fs path with
  | none => Except.error VersionError.fileNotFound
  | some content =>
    match parse content with
    | none => Except.error VersionError.parseError
    | some parsed =>
      match getVersionField parsed with
      | none => Except.error VersionError.missingField
      | some release => Except.ok (versionOf release, release)

/-- The relative path built by os.path.join("..", "..", "Cargo.toml") on
line 32, as a list of path components. -/
def manifestRelParts : List (List Char) :=
  [chars "..", chars "..", chars "Cargo.toml"]

/-- Resolution of a relative path by open: components are applied in order
to the current working directory of the process, a parent component
dropping the last directory. -/
def resolveOpen (cwd : List (List Char)) (rel : List (List Char)) :
    List (List Char) :=
  rel.foldl (fun acc comp =>
    if comp = chars ".." then acc.dropLast else acc ++ [comp]) cwd

/-- The absolute path the code opens, as a function of the working
directory of the process at the moment conf.py runs. -/
def manifestAbsPath (cwd : List (List Char)) : List (List Char) :=
  resolveOpen cwd manifestRelParts

/-- Modelled from the spec: the manifest location the specification
describes, two directory levels above the directory that contains the
configuration file. -/
def specManifestPath (confDir : List (List Char)) : List (List Char) :=
  confDir.dropLast.dropLast ++ [chars "Cargo.toml"]

/-- Observable input and output activity of the process. -/
inductive Event where
  | read : List Char → Event
  | write : List Char → Event
  | network : Event
deriving DecidableEq

/-- Embedding of open(path).read(): the contents are returned and one read
event is logged. -/
def readFile (fs : List Char → Option (List Char)) (path : List Char) :
    Option (List Char) × List Event :=
  (fs path, [Event.read path])

/-- Effect-instrumented embedding of version(): the same computation as
resolve_version, with the event trace of its activity made explicit.  The
only effectful call in the source is the single open(...).read(), so the
trace is produced by readFile alone. -/
def resolve_versionT (fs : List Char → Option (List Char))
    (parse : List Char → Option Toml) (path : List Char) :
    Except VersionError (List Char × List Char) × List Event :=
  match readFile fs path with
  | (none, evs) => (Except.error VersionError.fileNotFound, evs)
  | (some content, evs) =>
    match parse content with
    | none => (Except.error VersionError.parseError, evs)
    | some parsed =>
      match getVersionField parsed with
      | none => (Except.error VersionError.missingField, evs)
      | some release => (Except.ok (versionOf release, release), evs)

/-- Splitting never produces an empty list of pieces. -/
theorem splitDot_ne_nil (s : List Char) : splitDot s ≠ [] := by
  cases s with
  | nil => simp [splitDot]
  | cons c cs =>
    by_cases h : c = '.' <;> simp [splitDot, h]

/-- Unfolding of splitDot at a dot. -/
theorem splitDot_cons_dot (cs : List Char) :
    splitDot ('.' :: cs) = [] :: splitDot cs := by
  simp [splitDot]

/-- Unfolding of splitDot at a non-dot character. -/
theorem splitDot_cons_ne (c : Char) (cs : List Char) (h : c ≠ '.') :
    splitDot (c :: cs) = (c :: (splitDot cs).headI) :: (splitDot cs).tail := by
  simp [splitDot, h]

/-- A dot-free string splits into the single piece that is itself. -/
theorem splitDot_eq_single (s : List Char) (h : '.' ∉ s) : splitDot s = [s] := by
  induction s with
  | nil => rfl
  | cons c cs ih =>
    have hc : c ≠ '.' := by
      intro hc
      exact h (hc ▸ List.mem_cons_self c cs)
    have hcs : '.' ∉ cs := fun hm => h (List.mem_cons_of_mem c hm)
    rw [splitDot_cons_ne c cs hc, ih hcs]
    rfl

/-- Splitting a string that starts with a dot-free piece followed by a dot
peels off that piece. -/
theorem splitDot_append (a t : List Char) (h : '.' ∉ a) :
    splitDot (a ++ '.' :: t) = a :: splitDot t := by
  induction a with
  | nil => simp [splitDot_cons_dot]
  | cons c cs ih =>
    have hc : c ≠ '.' := by
      intro hc
      exact h (hc ▸ List.mem_cons_self c cs)
    have hcs : '.' ∉ cs := fun hm => h (List.mem_cons_of_mem c hm)
    rw [List.cons_append, splitDot_cons_ne c _ hc, ih hcs]
    rfl

/-- No piece produced by splitDot contains a dot. -/
theorem not_dot_mem_splitDot (s : List Char) (p : List Char)
    (hp : p ∈ splitDot s) : '.' ∉ p := by
  induction s generalizing p with
  | nil =>
    simp [splitDot] at hp
    subst hp
    simp
  | cons c cs ih =>
    by_cases hc : c = '.'
    · subst hc
      rw [splitDot_cons_dot] at hp
      rcases List.mem_cons.mp hp with h1 | h2
      · subst h1; simp
      · exact ih p h2
    · rw [splitDot_cons_ne c cs hc] at hp
      rcases List.mem_cons.mp hp with h1 | h2
      · subst h1
        intro hmem
        rcases List.mem_cons.mp hmem with h3 | h4
        · exact hc h3.symm
        · cases hs : splitDot cs with
          | nil => exact absurd hs (splitDot_ne_nil cs)
          | cons q qs =>
            have hq : (splitDot cs).headI ∈ splitDot cs := by
              rw [hs]; exact List.mem_cons_self q qs
            exact ih (splitDot cs).headI hq h4
      · exact ih p (List.mem_of_mem_tail h2)

/-- Joining a list whose head piece gains a leading character. -/
theorem joinDot_cons_head (c : Char) (p : List Char) (ps : List (List Char)) :
    joinDot ((c :: p) :: ps) = c :: joinDot (p :: ps) := by
  cases ps with
  | nil => rfl
  | cons q qs => rfl

/-- Joining the pieces of a split recovers the original string. -/
theorem joinDot_splitDot (s : List Char) : joinDot (splitDot s) = s := by
  induction s with
  | nil => rfl
  | cons c cs ih =>
    cases hs : splitDot cs with
    | nil => exact absurd hs (splitDot_ne_nil cs)
    | cons q qs =>
      rw [hs] at ih
      by_cases hc : c = '.'
      · subst hc
        rw [splitDot_cons_dot, hs]
        show joinDot ([] :: q :: qs) = '.' :: cs
        rw [show joinDot ([] :: q :: qs) = '.' :: joinDot (q :: qs) from rfl, ih]
      · rw [splitDot_cons_ne c cs hc, hs]
        simp only [List.headI_cons, List.tail_cons]
        rw [joinDot_cons_head, ih]

/-- The head piece of a join is an initial segment of the join. -/
theorem head_initial_joinDot (p : List Char) (ps : List (List Char)) :
    p <+: joinDot (p :: ps) := by
  cases ps with
  | nil => exact ⟨[], by simp [joinDot]⟩
  | cons q qs => exact ⟨'.' :: joinDot (q :: qs), rfl⟩

/-- With at least two pieces, versionOf is the first two joined by a dot. -/
theorem versionOf_of_two (s a b : List Char) (rest : List (List Char))
    (h : splitDot s = a :: b :: rest) : versionOf s = a ++ '.' :: b := by
  rw [versionOf, h]
  rfl

/-- With a single piece, versionOf returns the whole input. -/
theorem versionOf_of_single (s a : List Char) (h : splitDot s = [a]) :
    versionOf s = s := by
  have hj := joinDot_splitDot s
  rw [h] at hj
  rw [versionOf, h]
  exact hj

/-- The derived version is an initial segment of the input. -/
theorem versionOf_initial (s : List Char) : versionOf s <+: s := by
  cases hs : splitDot s with
  | nil => exact absurd hs (splitDot_ne_nil s)
  | cons a ps =>
    cases ps with
    | nil =>
      rw [versionOf_of_single s a hs]
    | cons b rest =>
      rw [versionOf_of_two s a b rest hs]
      have hj := joinDot_splitDot s
      rw [hs] at hj
      rw [← hj]
      show a ++ '.' :: b <+: a ++ '.' :: joinDot (b :: rest)
      obtain ⟨t, ht⟩ := head_initial_joinDot b rest
      exact ⟨t, by rw [List.append_assoc, List.cons_append, ht]⟩

/-- Claim C1: for every release string with at least two dot-separated
components, the derived version is exactly the first two components
rejoined with a single dot. -/
theorem version_first_two_components (s a b : List Char)
    (rest : List (List Char)) (h : splitDot s = a :: b :: rest) :
    versionOf s = a ++ '.' :: b :=
  versionOf_of_two s a b rest h

/-- Witness for C1 at the two examples of the claim: release 2.10 gives
version 2.10 and release 0.7.2 gives version 0.7. -/
theorem version_first_two_components_witness :
    versionOf (chars "2.10") = chars "2" ++ '.' :: chars "10"
    ∧ versionOf (chars "0.7.2") = chars "0" ++ '.' :: chars "7" :=
  ⟨version_first_two_components (chars "2.10") (chars "2") (chars "10") []
      (by decide),
   version_first_two_components (chars "0.7.2") (chars "0") (chars "7")
      [chars "2"] (by decide)⟩

/-- Claim C4: a release string containing no dot is returned as the
version unchanged. -/
theorem version_no_dot_identity (s : List Char) (h : '.' ∉ s) :
    versionOf s = s :=
  versionOf_of_single s s (splitDot_eq_single s h)

/-- Witness for C4 at the example of the claim: release 1 gives
version 1. -/
theorem version_no_dot_identity_witness :
    '.' ∉ chars "1" ∧ versionOf (chars "1") = chars "1" :=
  ⟨by decide, version_no_dot_identity (chars "1") (by decide)⟩

/-- Claim C6: the derivation of version from release is a function of the
release string, hence deterministic, and it is idempotent: truncating an
already truncated version string returns it unchanged. -/
theorem version_deterministic_idempotent (s : List Char) :
    versionOf (versionOf s) = versionOf s := by
  cases hs : splitDot s with
  | nil => exact absurd hs (splitDot_ne_nil s)
  | cons a ps =>
    have ha : '.' ∉ a := by
      refine not_dot_mem_splitDot s a ?_
      rw [hs]; exact List.mem_cons_self a ps
    cases ps with
    | nil =>
      rw [versionOf_of_single s a hs]
      exact versionOf_of_single s a hs
    | cons b rest =>
      have hb : '.' ∉ b := by
        refine not_dot_mem_splitDot s b ?_
        rw [hs]; exact List.mem_cons_of_mem a (List.mem_cons_self b rest)
      rw [versionOf_of_two s a b rest hs]
      have h2 : splitDot (a ++ '.' :: b) = a :: [b] := by
        rw [splitDot_append a b ha, splitDot_eq_single b hb]
      exact versionOf_of_two _ a b [] h2

/-- Claim C7: the derived version is a textual initial segment of the
release; it equals the release truncated just before the second dot when
the release has at least two dot-separated components, and equals the
release itself otherwise. -/
theorem version_textual_initial_segment (s : List Char) :
    versionOf s <+: s
    ∧ (∀ a b rest, splitDot s = a :: b :: rest → versionOf s = a ++ '.' :: b)
    ∧ ((splitDot s).length < 2 → versionOf s = s) := by
  refine ⟨versionOf_initial s,
    fun a b rest h => versionOf_of_two s a b rest h, fun hlen => ?_⟩
  cases hs : splitDot s with
  | nil => exact absurd hs (splitDot_ne_nil s)
  | cons a ps =>
    cases ps with
    | nil => exact versionOf_of_single s a hs
    | cons b rest =>
      rw [hs] at hlen
      simp at hlen
      omega

/-- Witness for C7 at release 0.7.2, with at least two components, and at
release 1, with fewer than two components. -/
theorem version_textual_initial_segment_witness :
    (versionOf (chars "0.7.2") <+: chars "0.7.2")
    ∧ versionOf (chars "0.7.2") = chars "0" ++ '.' :: chars "7"
    ∧ versionOf (chars "1") = chars "1" :=
  ⟨(version_textual_initial_segment (chars "0.7.2")).1,
   (version_textual_initial_segment (chars "0.7.2")).2.1 (chars "0")
      (chars "7") [chars "2"] (by decide),
   (version_textual_initial_segment (chars "1")).2.2 (by decide)⟩

/-- Claim C8: the truncation is purely textual, with no numeric parsing or
validation: any dot-free components whatsoever, numeric or not, are passed
through unchanged into version. -/
theorem version_no_numeric_validation (a b t : List Char)
    (ha : '.' ∉ a) (hb : '.' ∉ b) :
    versionOf (a ++ '.' :: b) = a ++ '.' :: b
    ∧ versionOf (a ++ '.' :: (b ++ '.' :: t)) = a ++ '.' :: b := by
  constructor
  · have h2 : splitDot (a ++ '.' :: b) = a :: [b] := by
      rw [splitDot_append a b ha, splitDot_eq_single b hb]
    exact versionOf_of_two _ a b [] h2
  · have h2 : splitDot (a ++ '.' :: (b ++ '.' :: t)) = a :: b :: splitDot t := by
      rw [splitDot_append a _ ha, splitDot_append b t hb]
    exact versionOf_of_two _ a b (splitDot t) h2

/-- Witness for C8 at the non-numeric example of the claim: release
abc.def is accepted and passed through unchanged, and abc.def.ghi is
truncated the same purely textual way. -/
theorem version_no_numeric_validation_witness :
    versionOf (chars "abc" ++ '.' :: chars "def")
      = chars "abc" ++ '.' :: chars "def"
    ∧ versionOf (chars "abc" ++ '.' :: (chars "def" ++ '.' :: chars "ghi"))
      = chars "abc" ++ '.' :: chars "def" :=
  version_no_numeric_validation (chars "abc") (chars "def") (chars "ghi")
    (by decide) (by decide)

/-- Claim C10: for every release string the derived version contains at
most one dot, splits into at most two components, and is never longer than
the release. -/
theorem version_at_most_one_dot (s : List Char) :
    (versionOf s).count '.' ≤ 1
    ∧ (splitDot (versionOf s)).length ≤ 2
    ∧ (versionOf s).length ≤ s.length := by
  refine ⟨?_, ?_, (versionOf_initial s).length_le⟩ <;>
  · cases hs : splitDot s with
    | nil => exact absurd hs (splitDot_ne_nil s)
    | cons a ps =>
      have ha : '.' ∉ a := by
        refine not_dot_mem_splitDot s a ?_
        rw [hs]; exact List.mem_cons_self a ps
      cases ps with
      | nil =>
        have h1 := versionOf_of_single s a hs
        have hj := joinDot_splitDot s
        rw [hs] at hj
        simp only [joinDot] at hj
        rw [h1, ← hj]
        simp [splitDot_eq_single a ha, List.count_eq_zero.mpr ha]
      | cons b rest =>
        have hb : '.' ∉ b := by
          refine not_dot_mem_splitDot s b ?_
          rw [hs]; exact List.mem_cons_of_mem a (List.mem_cons_self b rest)
        rw [versionOf_of_two s a b rest hs]
        simp [splitDot_append a b ha, splitDot_eq_single b hb,
          List.count_append, List.count_cons,
          List.count_eq_zero.mpr ha, List.count_eq_zero.mpr hb]

/-- Claim C2: whenever the manifest parses to a table whose package table
carries a string version field s, the returned release is exactly s, with
no normalization, trimming, or rewriting of any kind. -/
theorem release_equals_manifest_field (fs : List Char → Option (List Char))
    (parse : List Char → Option Toml) (path content : List Char)
    (kvs pkg : List (List Char × Toml)) (s : List Char)
    (hfs : fs path = some content)
    (hp : parse content = some (Toml.table kvs))
    (hpkg : tomlLookup kvs (chars "package") = some (Toml.table pkg))
    (hver : tomlLookup pkg (chars "version") = some (Toml.str s)) :
    resolve_version fs parse path = Except.ok (versionOf s, s) := by
  simp [resolve_version, hfs, hp, getVersionField, hpkg, hver]

/-- Witness for C2 on a concrete one-file filesystem whose manifest holds
package version 0.7.2: the release component is that exact string. -/
theorem release_equals_manifest_field_witness :
    resolve_version (fun _ => some (chars "manifest"))
      (fun _ => some (Toml.table [(chars "package",
        Toml.table [(chars "version", Toml.str (chars "0.7.2"))])]))
      (chars "Cargo.toml")
      = Except.ok (versionOf (chars "0.7.2"), chars "0.7.2") :=
  release_equals_manifest_field _ _ (chars "Cargo.toml") (chars "manifest")
    [(chars "package", Toml.table [(chars "version", Toml.str (chars "0.7.2"))])]
    [(chars "version", Toml.str (chars "0.7.2"))]
    (chars "0.7.2") rfl rfl rfl rfl

/-- Claim C5: resolve_version fails with the file-not-found error exactly
when the path is absent from the filesystem, with the parse error exactly
when the file exists but its content is not valid structured data, and
with the missing-field error exactly when parsing succeeds but the package
version string cannot be extracted; every failure surfaces as is, with no
catch, retry, wrapping, or fallback default version. -/
theorem resolve_version_error_taxonomy (fs : List Char → Option (List Char))
    (parse : List Char → Option Toml) (path : List Char) :
    (resolve_version fs parse path = Except.error VersionError.fileNotFound
      ↔ fs path = none)
    ∧ (resolve_version fs parse path = Except.error VersionError.parseError
      ↔ ∃ c, fs path = some c ∧ parse c = none)
    ∧ (resolve_version fs parse path = Except.error VersionError.missingField
      ↔ ∃ c m, fs path = some c ∧ parse c = some m
          ∧ getVersionField m = none) := by
  cases hfs : fs path with
  | none => simp [resolve_version, hfs]
  | some content =>
    cases hp : parse content with
    | none => simp [resolve_version, hfs, hp]
    | some parsed =>
      cases hg : getVersionField parsed with
      | none => simp [resolve_version, hfs, hp, hg]
      | some rel => simp [resolve_version, hfs, hp, hg]

/-- Claim C9: a call performs exactly one file read as its only observable
activity: the event trace is the single read of the manifest path, so in
particular no write and no network event occurs, the filesystem passed in
is never altered, and the returned value is the same pair resolve_version
computes. -/
theorem resolve_version_single_read (fs : List Char → Option (List Char))
    (parse : List Char → Option Toml) (path : List Char) :
    (resolve_versionT fs parse path).2 = [Event.read path]
    ∧ (∀ p, Event.write p ∉ (resolve_versionT fs parse path).2)
    ∧ Event.network ∉ (resolve_versionT fs parse path).2
    ∧ (resolve_versionT fs parse path).1 = resolve_version fs parse path := by
  have htrace : (resolve_versionT fs parse path).2 = [Event.read path] := by
    cases hfs : fs path with
    | none => simp [resolve_versionT, readFile, hfs]
    | some content =>
      cases hp : parse content with
      | none => simp [resolve_versionT, readFile, hfs, hp]
      | some parsed =>
        cases hg : getVersionField parsed with
        | none => simp [resolve_versionT, readFile, hfs, hp, hg]
        | some rel => simp [resolve_versionT, readFile, hfs, hp, hg]
  refine ⟨htrace, ?_, ?_, ?_⟩
  · intro p
    rw [htrace]
    simp
  · rw [htrace]
    simp
  · cases hfs : fs path with
    | none => simp [resolve_versionT, resolve_version, readFile, hfs]
    | some content =>
      cases hp : parse content with
      | none => simp [resolve_versionT, resolve_version, readFile, hfs, hp]
      | some parsed =>
        cases hg : getVersionField parsed with
        | none => simp [resolve_versionT, resolve_version, readFile, hfs, hp, hg]
        | some rel => simp [resolve_versionT, resolve_version, readFile, hfs, hp, hg]

/-- Claim C3 counterexample: the open call resolves the relative path
against the working directory of the process, not against the location of
the configuration file.  With working directory home and the configuration
file residing in repo/doc/src, the opened path differs from the path two
levels above the configuration file. -/
theorem manifest_path_counterexample :
    manifestAbsPath [chars "home"]
      ≠ specManifestPath [chars "repo", chars "doc", chars "src"] := by
  decide

/-- Claim C3 as amended: the manifest path is resolved relative to the
current working directory of the process, and it denotes the location two
directory levels above the configuration file exactly when that working
directory is the directory containing the configuration file. -/
theorem manifest_path_relative_to_cwd (cwd : List (List Char)) :
    manifestAbsPath cwd = specManifestPath cwd := by
  rfl
